import Mathlib

/-!
Verification of the `rat-rs` repository (a Rust rewrite of coreutils `cat`).

The development shallowly embeds the two source files (`src/lib.rs`,
`src/main.rs`) into Lean:

* bytes are `Nat` (the Rust code reads `u8`, so concrete inputs are `< 256`;
  none of the operations here need a modular wrap on byte values because the
  only arithmetic performed on a byte is `b - 128` after a `128 <= b` test,
  and `b XOR 0x40` after a `b < 32 || b == 127` test);
* the `u64` line counter `index` wraps modulo `2 ^ 64` (`U64`), matching
  release-mode `u64` wrapping of `index += 1`;
* code that can panic (out-of-bounds slice writes in `exec`, the `todo!()`
  in argument parsing, out-of-range string slices) is modelled with
  `Option`, `none` standing for the panic;
* the I/O layer is abstracted: a source's sequence of successful
  `read_to_buf` results is a `List (List Nat)` (one inner list per read, each
  of length at most `IO_BUFSIZE` for real reads), the output sink accumulates
  a `List Nat`, and the `println!` of the usage/version text is modelled by a
  `TopMsg` tag (the literal text is irrelevant to the properties considered).
-/

namespace RatRs

/-- `static IO_BUFSIZE: usize = 512 * 1024;` -/
def IO_BUFSIZE : Nat := 512 * 1024

/-- Modulus of the Rust `u64` type (the type of the line counter `index`). -/
def U64 : Nat := 2 ^ 64

/-- Decimal digits of `n` as ASCII bytes, most significant first, no leading
zeros (`0` renders as `"0"`).  This embeds the decimal rendering performed by
`format!("{index:6} ")`.  `fuel` only bounds the recursion; `n + 1` is always
enough fuel. -/
def decDigitsCore : Nat → Nat → List Nat → List Nat
  | 0, _, acc => acc
  | fuel + 1, n, acc =>
    if n / 10 = 0 then (48 + n % 10) :: acc
    else decDigitsCore fuel (n / 10) ((48 + n % 10) :: acc)

/-- ASCII decimal rendering of `n`. -/
def decDigits (n : Nat) : List Nat :=
  decDigitsCore (n + 1) n []

/-- The line-number field written by `format!("{index:6} ")`: the decimal
rendering of `i`, right-justified in a 6-character field padded with spaces
(wider numbers widen the field), followed by one space. -/
def numField (i : Nat) : List Nat :=
  List.replicate (6 - (decDigits i).length) 32 ++ decDigits i ++ [32]

/-- The transform state threaded through `Rat::exec`:
`prev_byte`, `prev_prev_byte` and the line counter `index`. -/
structure St where
  prev_byte : Nat
  prev_prev_byte : Nat
  index : Nat
deriving Repr, DecidableEq

/-- Initial state of `exec`: `prev_byte = b'\n'`, `prev_prev_byte = b' '`,
`index = 1`. -/
def initSt : St := ⟨10, 32, 1⟩

/-- A source, as stored in `RatArgs.files` (`enum Source` minus the
test-only `Mock` variant; the lazily opened file handle carries no
information for the properties considered, so only the path is kept). -/
inductive Source where
  | file (path : List Char)
  | stdin
deriving Repr, DecidableEq

/-- The configuration record `struct RatArgs`. -/
structure RatArgs where
  show_ends : Bool := false
  number_lines : Bool := false
  number_nonblank : Bool := false
  squeeze_blank : Bool := false
  show_tabs : Bool := false
  show_nonprinting : Bool := false
  files : List Source := []
  version : Bool := false
  help : Bool := false
deriving Repr, DecidableEq

/-- `RatArgs::default()`. -/
def ratArgsDefault : RatArgs := {}

/-- The squeeze-blank test of `exec`:
`self.args.squeeze_blank && *byte == b'\n' && prev_byte == b'\n' && prev_prev_byte == b'\n'`. -/
def squeezeCond (args : RatArgs) (s : St) (b : Nat) : Bool :=
  args.squeeze_blank && (b == 10) && (s.prev_byte == 10) && (s.prev_prev_byte == 10)

/-- The line-numbering test of `exec`:
`((number_lines && !number_nonblank) || (number_nonblank && *byte != b'\n')) && prev_byte == b'\n'`. -/
def numCond (args : RatArgs) (s : St) (b : Nat) : Bool :=
  ((args.number_lines && !args.number_nonblank) ||
    (args.number_nonblank && !(b == 10))) && (s.prev_byte == 10)

/-- Bytes emitted for the line-number field (empty when the numbering
condition does not hold). -/
def numOut (args : RatArgs) (s : St) (b : Nat) : List Nat :=
  if numCond args s b then numField s.index else []

/-- The line counter after processing one byte (`index += 1` on `u64` after a
number field was written). -/
def nextIndex (args : RatArgs) (s : St) (b : Nat) : Nat :=
  if numCond args s b then (s.index + 1) % U64 else s.index

/-- The `M-` bytes emitted when `show_nonprinting` is set and `*byte >= 128`. -/
def mNotation (args : RatArgs) (b : Nat) : List Nat :=
  if args.show_nonprinting && decide (128 ≤ b) then [77, 45] else []

/-- The byte after the in-place `*byte -= 128` reduction performed when
`show_nonprinting` is set and `*byte >= 128`. -/
def reduceHi (args : RatArgs) (b : Nat) : Nat :=
  if args.show_nonprinting && decide (128 ≤ b) then b - 128 else b

/-- One iteration of the per-byte loop body of `Rat::exec`, with the output
buffer abstracted away: returns the bytes appended to the output buffer and
the state after the iteration.  Mirrors the source order exactly:
squeeze-blank `continue`, line-number field, `M-`/`^` notation (whose `^X`
branch `continue`s without updating `prev_byte`/`prev_prev_byte`), `^I` for
tabs, plain emission; the state update uses the possibly reduced byte. -/
def step (args : RatArgs) (s : St) (b : Nat) : List Nat × St :=
  if squeezeCond args s b then ([], s)
  else if args.show_nonprinting &&
      (decide (reduceHi args b < 32) || (reduceHi args b == 127)) then
    (numOut args s b ++ mNotation args b ++ [94, Nat.xor (reduceHi args b) 64],
      { s with index := nextIndex args s b })
  else if args.show_tabs && (reduceHi args b == 9) then
    (numOut args s b ++ mNotation args b ++ [94, 73],
      { prev_byte := reduceHi args b, prev_prev_byte := s.prev_byte,
        index := nextIndex args s b })
  else
    (numOut args s b ++ mNotation args b ++ [reduceHi args b],
      { prev_byte := reduceHi args b, prev_prev_byte := s.prev_byte,
        index := nextIndex args s b })

/-- The per-byte loop of `exec` over one input chunk (`for byte in
&mut buf[..size]`), tracking `out_pos` of the `IO_BUFSIZE`-byte output
buffer.  At the top of each iteration, `out_pos >= out_buf.len()` flushes the
buffer and resets `out_pos` to 0; every slice write
(`copy_from_slice` of the number field / `"M-"` / `"^I"`, the two-cell `^X`
write, the single-cell plain write) must stay inside `out_buf`, i.e. the new
`out_pos` may not exceed `IO_BUFSIZE` — otherwise the Rust code panics,
modelled by `none`.  Emitted bytes are accumulated in order (buffer flushes
preserve the byte sequence reaching the sink). -/
def procChunkAux (args : RatArgs) : St → Nat → List Nat → Option (St × List Nat)
  | s, _, [] => some (s, [])
  | s, pos, b :: rest =>
    let pos0 := if IO_BUFSIZE ≤ pos then 0 else pos
    let p := step args s b
    if pos0 + p.1.length ≤ IO_BUFSIZE then
      match procChunkAux args p.2 (pos0 + p.1.length) rest with
      | some q => some (q.1, p.1 ++ q.2)
      | none => none
    else none

/-- Processing of one read chunk: the per-byte loop starting with a fresh
output buffer (`out_pos = 0`). -/
def procChunk (args : RatArgs) (s : St) (chunk : List Nat) :
    Option (St × List Nat) :=
  procChunkAux args s 0 chunk

/-- The read loop of `exec` over one source: each successful read produces a
chunk, each chunk is processed with a fresh output buffer, while the
transform state threads through. -/
def procChunks (args : RatArgs) : St → List (List Nat) → Option (St × List Nat)
  | s, [] => some (s, [])
  | s, c :: cs =>
    match procChunk args s c with
    | some p =>
      match procChunks args p.1 cs with
      | some q => some (q.1, p.2 ++ q.2)
      | none => none
    | none => none

/-- The source loop of `exec` (`for source in self.args.files.iter_mut()`):
each source contributes its list of read chunks; the transform state is not
reset between sources. -/
def procSources (args : RatArgs) : St → List (List (List Nat)) → Option (St × List Nat)
  | s, [] => some (s, [])
  | s, src :: rest =>
    match procChunks args s src with
    | some p =>
      match procSources args p.1 rest with
      | some q => some (q.1, p.2 ++ q.2)
      | none => none
    | none => none

/-- Tag for the text `exec` prints to the process standard output (the
`println!` of `RAT_USAGE`, resp. of `"{RAT_NAME} {RAT_VERSION}"`) before
returning without touching the sources or the sink. -/
inductive TopMsg where
  | usage
  | versionMsg
deriving Repr, DecidableEq

/-- `Rat::exec`.  `sources` is the list of the sources' read results (one
inner list of chunks per entry of `args.files`).  Returns the message printed
to standard output (if any) and the bytes written to the sink `write_to`
(`none` when a buffer write panics). -/
def exec (args : RatArgs) (sources : List (List (List Nat))) :
    Option TopMsg × Option (List Nat) :=
  if args.help then (some TopMsg.usage, some [])
  else if args.version then (some TopMsg.versionMsg, some [])
  else
    match procSources args initSt sources with
    | some p => (none, some p.2)
    | none => (none, none)

/-- The per-byte transform as a pure fold, ignoring the output buffer: the
state and output that `exec` produces whenever no buffer write goes out of
bounds. -/
def pureRun (args : RatArgs) (s : St) : List Nat → St × List Nat
  | [] => (s, [])
  | b :: rest =>
    let p := step args s b
    let q := pureRun args p.2 rest
    (q.1, p.1 ++ q.2)

/-- Splitting a list into chunks of size `n + 1` (fuel-driven so that the
definition reduces; `l.length` is always enough fuel). -/
def chunksOfCore : Nat → Nat → List Nat → List (List Nat)
  | 0, _, _ => []
  | _ + 1, _, [] => []
  | fuel + 1, n, b :: t =>
    ((b :: t).take (n + 1)) :: chunksOfCore fuel n ((b :: t).drop (n + 1))

/-- Splitting a list into chunks of size `n + 1`. -/
def chunksOf (n : Nat) (l : List Nat) : List (List Nat) :=
  chunksOfCore l.length n l

section Parsing

/-- `needle.is_prefix of hay` on character lists (helper for `str::contains`). -/
def startsWith : List Char → List Char → Bool
  | [], _ => true
  | _ :: _, [] => false
  | a :: as, b :: bs => a == b && startsWith as bs

/-- Rust `str::contains` for a literal needle, on character lists. -/
def strContains : List Char → List Char → Bool
  | [], needle => needle.isEmpty
  | c :: t, needle => startsWith needle (c :: t) || strContains t needle

/-- One step of the bundled-short-flag loop (`chars.for_each(...)` in
`RatArgs::new`).  The `'u'` arm is `todo!()` in the source, which panics:
modelled as `none`. -/
def applyShort (a : RatArgs) : Char → Option RatArgs
  | 'b' => some { a with number_nonblank := true }
  | 'E' => some { a with show_ends := true }
  | 'n' => some { a with number_lines := true }
  | 's' => some { a with squeeze_blank := true }
  | 'T' => some { a with show_tabs := true }
  | 'u' => none
  | 'v' => some { a with show_nonprinting := true }
  | 't' => some { a with show_tabs := true, show_nonprinting := true }
  | 'e' => some { a with show_nonprinting := true, show_ends := true }
  | 'A' => some { a with show_nonprinting := true, show_ends := true, show_tabs := true }
  | _ => some a

/-- The `match arg.as_str()` over long flags in `RatArgs::new` (reached only
when characters 1 and 2 of `arg` are both `'-'`; the fallthrough arm is a
no-op). -/
def applyLong (a : RatArgs) (arg : List Char) : RatArgs :=
  if arg = ("--help").toList then { a with help := true }
  else if arg = ("--version").toList then { a with version := true }
  else if arg = ("--show-tabs").toList then { a with show_tabs := true }
  else if arg = ("--number").toList then { a with number_lines := true }
  else if arg = ("--number-nonblank").toList then { a with number_nonblank := true }
  else if arg = ("--show-ends").toList then { a with show_ends := true }
  else if arg = ("--show-nonprinting").toList then { a with show_nonprinting := true }
  else if arg = ("--squeeze-blank").toList then { a with squeeze_blank := true }
  else if arg = ("--show-all").toList then
    { a with show_nonprinting := true, show_ends := true, show_tabs := true }
  else a

/-- Processing of one argument in `RatArgs::new` (arguments are modelled as
character lists; the by-byte slice `&arg[1..=2]` agrees with the by-character
slice on the ASCII arguments considered).  The first branch evaluates
`arg.contains("--") && &arg[1..=2] == "--"`; the slice `&arg[1..=2]` needs
`arg.len() >= 3` and otherwise panics (which happens exactly for the argument
`"--"`): modelled as `none`. -/
def parseArg (a : RatArgs) (arg : List Char) : Option RatArgs :=
  if strContains arg (("--").toList) && decide (arg.length ≤ 2) then
    none
  else if strContains arg (("--").toList) && decide ((arg.drop 1).take 2 = ("--").toList) then
    some (applyLong a arg)
  else if arg = ("-").toList then
    some { a with files := a.files ++ [Source.stdin] }
  else if strContains arg (("-").toList) &&
      (match arg with | c :: _ => c == '-' | [] => false) then
    (arg.drop 1).foldlM applyShort a
  else
    some { a with files := a.files ++ [Source.file arg] }

/-- `RatArgs::new(raw)`.  `&raw[1..]` panics on an empty vector (`none`); a
vector holding only the program name yields the single implicit stdin
source; otherwise each remaining argument is processed in order. -/
def ratArgsNew (raw : List (List Char)) : Option RatArgs :=
  match raw with
  | [] => none
  | [_] => some { ratArgsDefault with files := [Source.stdin] }
  | _ :: rest => rest.foldlM parseArg ratArgsDefault

end Parsing

/-- Configuration with only `show_ends` set. -/
def argsShowEnds : RatArgs := { show_ends := true }

/-- Configuration with only `show_tabs` set. -/
def argsShowTabs : RatArgs := { show_tabs := true }

/-- Configuration with only `show_nonprinting` set. -/
def argsShowNonprinting : RatArgs := { show_nonprinting := true }

/-- Configuration with only `squeeze_blank` set. -/
def argsSqueeze : RatArgs := { squeeze_blank := true }

/-- Configuration with only `number_nonblank` set. -/
def argsNumberNonblank : RatArgs := { number_nonblank := true }

/-- Configuration with only `number_lines` set. -/
def argsNumberLines : RatArgs := { number_lines := true }

/-- Configuration with only `help` set. -/
def argsHelp : RatArgs := { help := true }

/-- All transform options (and help/version) disabled. -/
def optionsOff (args : RatArgs) : Prop :=
  args.show_ends = false ∧ args.number_lines = false ∧
  args.number_nonblank = false ∧ args.squeeze_blank = false ∧
  args.show_tabs = false ∧ args.show_nonprinting = false ∧
  args.help = false ∧ args.version = false

instance (args : RatArgs) : Decidable (optionsOff args) := by
  unfold optionsOff; infer_instance

end RatRs

/-! ## Helper lemmas about the transform -/

namespace RatRs

theorem decDigitsCore_len (fuel : Nat) :
    ∀ (n : Nat) (acc : List Nat) (k : Nat), n < 10 ^ k → 1 ≤ k →
      (decDigitsCore fuel n acc).length ≤ k + acc.length := by
  induction fuel with
  | zero =>
    intro n acc k _ _
    simp only [decDigitsCore]
    omega
  | succ fuel ih =>
    intro n acc k h hk
    by_cases h0 : n / 10 = 0
    · simp [decDigitsCore, h0]
      omega
    · simp only [decDigitsCore, h0, if_false]
      have hk2 : 2 ≤ k := by
        rcases Nat.lt_or_ge n 10 with hlt | hge
        · omega
        · by_contra hcon
          have hk1 : k = 1 := by omega
          simp [hk1] at h
          omega
      have hdiv : n / 10 < 10 ^ (k - 1) := by
        apply Nat.div_lt_of_lt_mul
        have : 10 ^ k = 10 ^ (k - 1) * 10 := by
          rw [← pow_succ]
          congr 1
          omega
        omega
      have := ih (n / 10) ((48 + n % 10) :: acc) (k - 1) hdiv (by omega)
      simp at this
      omega

theorem decDigits_len (n k : Nat) (h : n < 10 ^ k) (hk : 1 ≤ k) :
    (decDigits n).length ≤ k := by
  have := decDigitsCore_len (n + 1) n [] k h hk
  simpa [decDigits] using this

theorem numField_len (i : Nat) (h : i < U64) : (numField i).length ≤ 21 := by
  have h20 : (decDigits i).length ≤ 20 := by
    apply decDigits_len i 20 _ (by omega)
    have : U64 ≤ 10 ^ 20 := by decide
    omega
  simp [numField]
  omega

theorem step_len (args : RatArgs) (s : St) (b : Nat) (h : s.index < U64) :
    (step args s b).1.length ≤ 25 := by
  have hnum : (numOut args s b).length ≤ 21 := by
    unfold numOut
    split
    · exact numField_len s.index h
    · simp
  have hm : (mNotation args b).length ≤ 2 := by
    unfold mNotation
    split <;> simp
  unfold step
  split
  · simp
  split
  · simp
    omega
  split <;> simp <;> omega

theorem step_index (args : RatArgs) (s : St) (b : Nat) (h : s.index < U64) :
    (step args s b).2.index < U64 := by
  have hni : nextIndex args s b < U64 := by
    unfold nextIndex
    split
    · exact Nat.mod_lt _ (by decide)
    · exact h
  unfold step
  split
  · exact h
  split
  · exact hni
  split <;> exact hni

theorem pureRun_index (args : RatArgs) :
    ∀ (l : List Nat) (s : St), s.index < U64 → (pureRun args s l).1.index < U64 := by
  intro l
  induction l with
  | nil => intro s h; simpa [pureRun] using h
  | cons b rest ih =>
    intro s h
    simp only [pureRun]
    exact ih _ (step_index args s b h)

theorem pureRun_append (args : RatArgs) :
    ∀ (l1 l2 : List Nat) (s : St),
      pureRun args s (l1 ++ l2) =
        ((pureRun args (pureRun args s l1).1 l2).1,
          (pureRun args s l1).2 ++ (pureRun args (pureRun args s l1).1 l2).2) := by
  intro l1
  induction l1 with
  | nil => intro l2 s; simp [pureRun]
  | cons b rest ih =>
    intro l2 s
    simp only [List.cons_append, pureRun, List.append_eq]
    rw [ih]
    simp [List.append_assoc]

theorem procChunkAux_ok (args : RatArgs) :
    ∀ (chunk : List Nat) (s : St) (pos : Nat), s.index < U64 →
      pos + chunk.length * 25 ≤ IO_BUFSIZE →
      procChunkAux args s pos chunk = some (pureRun args s chunk) := by
  intro chunk
  induction chunk with
  | nil => intro s pos _ _; rfl
  | cons b rest ih =>
    intro s pos hidx hlen
    have hlen25 := step_len args s b hidx
    have hposlt : ¬ (IO_BUFSIZE ≤ pos) := by
      simp only [List.length_cons] at hlen
      omega
    have hcond : pos + (step args s b).1.length ≤ IO_BUFSIZE := by
      simp only [List.length_cons] at hlen
      omega
    simp only [procChunkAux, if_neg hposlt]
    rw [if_pos hcond]
    rw [ih (step args s b).2 (pos + (step args s b).1.length)
      (step_index args s b hidx)
      (by simp only [List.length_cons] at hlen; omega)]
    simp [pureRun]

theorem procChunkAux_sound (args : RatArgs) :
    ∀ (chunk : List Nat) (s : St) (pos : Nat) (p : St × List Nat),
      procChunkAux args s pos chunk = some p → p = pureRun args s chunk := by
  intro chunk
  induction chunk with
  | nil =>
    intro s pos p h
    simp [procChunkAux] at h
    simp [pureRun, ← h]
  | cons b rest ih =>
    intro s pos p h
    simp only [procChunkAux] at h
    by_cases hc : (if IO_BUFSIZE ≤ pos then 0 else pos) + (step args s b).1.length ≤ IO_BUFSIZE
    · rw [if_pos hc] at h
      cases hq : procChunkAux args (step args s b).2
          ((if IO_BUFSIZE ≤ pos then 0 else pos) + (step args s b).1.length) rest with
      | none => rw [hq] at h; exact absurd h (by simp)
      | some q =>
        rw [hq] at h
        simp only [Option.some_inj] at h
        have hih := ih _ _ q hq
        simp [pureRun, ← h, hih]
    · rw [if_neg hc] at h
      exact absurd h (by simp)

theorem procChunks_sound (args : RatArgs) :
    ∀ (chunks : List (List Nat)) (s : St) (p : St × List Nat),
      procChunks args s chunks = some p → p = pureRun args s chunks.flatten := by
  intro chunks
  induction chunks with
  | nil =>
    intro s p h
    simp [procChunks] at h
    simp [pureRun, ← h]
  | cons c cs ih =>
    intro s p h
    simp only [procChunks] at h
    cases hp1 : procChunk args s c with
    | none => rw [hp1] at h; exact absurd h (by simp)
    | some p1 =>
      rw [hp1] at h
      simp only at h
      cases hq : procChunks args p1.1 cs with
      | none => rw [hq] at h; exact absurd h (by simp)
      | some q =>
        rw [hq] at h
        simp only [Option.some_inj] at h
        have h1 := procChunkAux_sound args c s 0 p1 hp1
        have h2 := ih p1.1 q hq
        rw [List.flatten_cons, pureRun_append]
        simp [← h, h1, h2]

theorem procChunks_ok (args : RatArgs) :
    ∀ (chunks : List (List Nat)) (s : St), s.index < U64 →
      (∀ c ∈ chunks, c.length * 25 ≤ IO_BUFSIZE) →
      procChunks args s chunks = some (pureRun args s chunks.flatten) := by
  intro chunks
  induction chunks with
  | nil => intro s _ _; rfl
  | cons c cs ih =>
    intro s hidx hsz
    have h1 : procChunk args s c = some (pureRun args s c) := by
      apply procChunkAux_ok args c s 0 hidx
      have := hsz c (by simp)
      omega
    have h2 : procChunks args (pureRun args s c).1 cs =
        some (pureRun args (pureRun args s c).1 cs.flatten) := by
      apply ih _ (pureRun_index args c s hidx)
      intro d hd
      exact hsz d (by simp [hd])
    simp only [procChunks, h1, h2]
    rw [List.flatten_cons, pureRun_append]

theorem procChunks_append (args : RatArgs) :
    ∀ (cs1 cs2 : List (List Nat)) (s : St),
      procChunks args s (cs1 ++ cs2) =
        match procChunks args s cs1 with
        | some p =>
          match procChunks args p.1 cs2 with
          | some q => some (q.1, p.2 ++ q.2)
          | none => none
        | none => none := by
  intro cs1
  induction cs1 with
  | nil =>
    intro cs2 s
    simp only [List.nil_append, procChunks]
    cases procChunks args s cs2 <;> simp
  | cons c cs ih =>
    intro cs2 s
    simp only [List.cons_append, procChunks]
    cases hc : procChunk args s c with
    | none => simp
    | some p =>
      dsimp only [List.append_eq]
      rw [ih]
      cases h1 : procChunks args p.1 cs with
      | none => simp
      | some q =>
        dsimp only
        cases h2 : procChunks args q.1 cs2 <;> simp [List.append_assoc]

theorem procSources_join (args : RatArgs) :
    ∀ (srcs : List (List (List Nat))) (s : St),
      procSources args s srcs = procChunks args s srcs.flatten := by
  intro srcs
  induction srcs with
  | nil => intro s; rfl
  | cons src rest ih =>
    intro s
    simp only [procSources, List.flatten_cons, procChunks_append]
    cases h : procChunks args s src with
    | none => rfl
    | some p => simp only [ih]

theorem procSources_single (args : RatArgs) (s : St) (cs : List (List Nat)) :
    procSources args s [cs] = procChunks args s cs := by
  rw [procSources_join]
  simp

theorem chunksOfCore_flatten (fuel : Nat) :
    ∀ (n : Nat) (l : List Nat), l.length ≤ fuel →
      (chunksOfCore fuel n l).flatten = l := by
  induction fuel with
  | zero =>
    intro n l h
    have : l = [] := by
      cases l with
      | nil => rfl
      | cons b t => simp at h
    simp [this, chunksOfCore]
  | succ fuel ih =>
    intro n l h
    cases l with
    | nil => rfl
    | cons b t =>
      simp only [chunksOfCore, List.flatten_cons]
      rw [ih n ((b :: t).drop (n + 1)) (by simp at h ⊢; omega)]
      exact List.take_append_drop (n + 1) (b :: t)

theorem chunksOfCore_mem_len (fuel : Nat) :
    ∀ (n : Nat) (l : List Nat) (c : List Nat), c ∈ chunksOfCore fuel n l →
      c.length ≤ n + 1 := by
  induction fuel with
  | zero => intro n l c h; simp [chunksOfCore] at h
  | succ fuel ih =>
    intro n l c h
    cases l with
    | nil => simp [chunksOfCore] at h
    | cons b t =>
      simp only [chunksOfCore, List.mem_cons] at h
      rcases h with h | h
      · rw [h]
        exact List.length_take_le (n + 1) (b :: t)
      · exact ih n _ c h

theorem chunksOf_flatten (n : Nat) (l : List Nat) : (chunksOf n l).flatten = l :=
  chunksOfCore_flatten l.length n l le_rfl

theorem chunksOf_mem_len (n : Nat) (l : List Nat) (c : List Nat)
    (h : c ∈ chunksOf n l) : c.length ≤ n + 1 :=
  chunksOfCore_mem_len l.length n l c h

theorem step_off (args : RatArgs) (h : optionsOff args) (s : St) (b : Nat) :
    step args s b = ([b], ⟨b, s.prev_byte, s.index⟩) := by
  obtain ⟨-, h2, h3, h4, h5, h6, -, -⟩ := h
  simp [step, squeezeCond, numCond, numOut, mNotation, reduceHi, nextIndex,
    h2, h3, h4, h5, h6]

theorem procChunkAux_off (args : RatArgs) (h : optionsOff args) :
    ∀ (chunk : List Nat) (s : St) (pos : Nat),
      procChunkAux args s pos chunk = some (pureRun args s chunk) := by
  intro chunk
  induction chunk with
  | nil => intro s pos; rfl
  | cons b rest ih =>
    intro s pos
    have hstep := step_off args h s b
    have hN : IO_BUFSIZE = 524288 := rfl
    by_cases hp : IO_BUFSIZE ≤ pos
    · simp only [procChunkAux, if_pos hp, hstep]
      rw [if_pos (by simp; omega)]
      simp only [ih]
      simp [pureRun, hstep]
    · simp only [procChunkAux, if_neg hp, hstep]
      rw [if_pos (by simp; omega)]
      simp only [ih]
      simp [pureRun, hstep]

theorem pureRun_off (args : RatArgs) (h : optionsOff args) :
    ∀ (chunk : List Nat) (s : St), (pureRun args s chunk).2 = chunk := by
  intro chunk
  induction chunk with
  | nil => intro s; rfl
  | cons b rest ih =>
    intro s
    simp [pureRun, step_off args h, ih]

theorem procChunks_off (args : RatArgs) (h : optionsOff args) :
    ∀ (chunks : List (List Nat)) (s : St),
      procChunks args s chunks = some (pureRun args s chunks.flatten) := by
  intro chunks
  induction chunks with
  | nil => intro s; rfl
  | cons c cs ih =>
    intro s
    have h1 : procChunk args s c = some (pureRun args s c) :=
      procChunkAux_off args h c s 0
    simp only [procChunks, h1, ih]
    rw [List.flatten_cons, pureRun_append]

theorem step_tab (s : St) :
    step argsShowTabs s 9 = ([94, 73], ⟨9, s.prev_byte, s.index⟩) := rfl

theorem tabs_overflow :
    ∀ (k : Nat) (s : St) (pos : Nat), pos % 2 = 1 → pos < IO_BUFSIZE →
      IO_BUFSIZE ≤ pos + 2 * k →
      procChunkAux argsShowTabs s pos (List.replicate k 9) = none := by
  intro k
  have hN : IO_BUFSIZE = 524288 := rfl
  induction k with
  | zero =>
    intro s pos h1 h2 h3
    omega
  | succ k ih =>
    intro s pos h1 h2 h3
    rw [List.replicate_succ]
    simp only [procChunkAux, if_neg (by omega : ¬ (IO_BUFSIZE ≤ pos)), step_tab]
    by_cases hc : pos + 2 ≤ IO_BUFSIZE
    · have hlt : pos + 2 < IO_BUFSIZE := by omega
      rw [if_pos (by simpa using hc)]
      have hl2 : ([94, 73] : List Nat).length = 2 := rfl
      rw [hl2, ih ⟨9, s.prev_byte, s.index⟩ (pos + 2) (by omega) hlt (by omega)]
    · rw [if_neg (by simpa using hc)]

theorem procChunks_cons (args : RatArgs) (s : St) (c : List Nat)
    (cs : List (List Nat)) :
    procChunks args s (c :: cs) =
      match procChunk args s c with
      | some p =>
        match procChunks args p.1 cs with
        | some q => some (q.1, p.2 ++ q.2)
        | none => none
      | none => none := rfl

theorem exec_run (args : RatArgs) (sources : List (List (List Nat)))
    (hh : args.help = false) (hv : args.version = false) :
    exec args sources =
      match procSources args initSt sources with
      | some p => (none, some p.2)
      | none => (none, none) := by
  simp [exec, hh, hv]

theorem procChunkAux_97 (rest : List Nat) :
    procChunkAux argsShowTabs initSt 0 (97 :: rest) =
      (match procChunkAux argsShowTabs ⟨97, 10, 1⟩ 1 rest with
       | some q => some (q.1, 97 :: q.2)
       | none => none) := rfl

end RatRs

/-! ## The claims -/

namespace RatRs

/-- C1: the claim says that with `showEnds` enabled a `$` is emitted before
each newline, so that input `"a\nb"` gives `"a$\nb"`.  The code never
implements this: `exec` does not consult `show_ends` at all (the per-byte
transform is the same with the flag set or cleared), and the run on
`"a\nb"` (`[97, 10, 98]`) with only `showEnds` set writes exactly
`[97, 10, 98]` — no `$` (byte 36) anywhere — contradicting the claim and the
program's own usage text for `-E`. -/
theorem c1_show_ends_ignored :
    (∀ (args : RatArgs) (s : St) (b : Nat),
        step { args with show_ends := true } s b =
          step { args with show_ends := false } s b) ∧
    exec argsShowEnds [[[97, 10, 98]]] = (none, some [97, 10, 98]) :=
  ⟨fun _ _ _ => rfl, rfl⟩

/-- C2 counterexample: the claim says no write into the output buffer can go
out of bounds for any configuration and input chunk.  It is false: with only
`showTabs` set, the chunk consisting of `'a'` followed by 262144 tabs
(262145 bytes, well below the `IO_BUFSIZE = 524288`-byte read buffer) drives
`out_pos` to `IO_BUFSIZE - 1` with the flush check passed, and the two-byte
`"^I"` slice write then lands outside the buffer: the run panics (`none`). -/
theorem c2_buffer_overflow :
    exec argsShowTabs [[97 :: List.replicate 262144 9]] = (none, none) := by
  have h2 := tabs_overflow 262144 ⟨97, 10, 1⟩ 1 (by norm_num)
    (by norm_num [IO_BUFSIZE]) (by norm_num [IO_BUFSIZE])
  have h1 : procChunk argsShowTabs initSt (97 :: List.replicate 262144 9) = none := by
    show procChunkAux argsShowTabs initSt 0 (97 :: List.replicate 262144 9) = none
    rw [procChunkAux_97, h2]
  have hs : procSources argsShowTabs initSt [[97 :: List.replicate 262144 9]] = none := by
    rw [procSources_single, procChunks_cons, h1]
  rw [exec_run argsShowTabs _ rfl rfl, hs]

/-- C2 amended: for every configuration and state with a valid `u64` line
counter, processing a chunk whose worst-case expansion fits the output buffer
(at most 25 output bytes per input byte, so any chunk of at most
`IO_BUFSIZE / 25` bytes) performs no out-of-bounds write: the chunk is
processed successfully and produces the pure per-byte transform's output. -/
theorem c2_amended_bound (args : RatArgs) (s : St) (chunk : List Nat)
    (hidx : s.index < U64) (hlen : chunk.length * 25 ≤ IO_BUFSIZE) :
    procChunk args s chunk = some (pureRun args s chunk) :=
  procChunkAux_ok args chunk s 0 hidx (by omega)

/-- C2 amended, witness: the bound discharged at the concrete chunk
`[9, 10]` with `showTabs` set from the initial state. -/
theorem c2_amended_bound_witness :
    initSt.index < U64 ∧ ([9, 10] : List Nat).length * 25 ≤ IO_BUFSIZE ∧
      procChunk argsShowTabs initSt [9, 10] =
        some (pureRun argsShowTabs initSt [9, 10]) :=
  ⟨by decide, by decide, c2_amended_bound argsShowTabs initSt [9, 10] (by decide) (by decide)⟩

/-- C3 counterexample: the claim says a flag-only argument vector such as
`["rat", "-n"]` yields a configuration with a single implicit stdin source.
It is false: parsing `["rat", "-n"]` succeeds but leaves the source list
empty — the implicit stdin source is added only when the vector holds nothing
but the program name (`raw.len() == 1`), exactly as the repository's own
`rat_args_test` macro asserts with `assert!(rat_args.files.is_empty())`. -/
theorem c3_counterexample :
    (ratArgsNew [("rat").toList, ("-n").toList]).map RatArgs.files = some [] ∧
    (ratArgsNew [("rat").toList, ("-n").toList]).map RatArgs.files ≠
      some [Source.stdin] := by
  constructor
  · decide
  · decide

/-- C3 amended: parsing `["rat", "-n"]` succeeds and yields the default
configuration with `number_lines` set and an empty source list; the single
implicit standard-input source appears only for an argument vector holding
just the program name. -/
theorem c3_amended_sources :
    ratArgsNew [("rat").toList, ("-n").toList] =
      some { ratArgsDefault with number_lines := true } ∧
    ratArgsNew [("rat").toList] =
      some { ratArgsDefault with files := [Source.stdin] } := by
  constructor <;> decide

/-- C4: the claim (and the program's usage text, `-u  (ignored)`) says `-u`
is accepted with no effect.  The code's `'u'` match arm is `todo!()`, which
panics: parsing `["rat", "-u"]` does not return normally. -/
theorem c4_dash_u_fails :
    ratArgsNew [("rat").toList, ("-u").toList] = none := by decide

/-- C5: the claim (and the usage text for `-v`) says the `^`/`M-` notation
excepts LFD and TAB, so a newline is emitted as a newline and a tab is left
to the tab step.  The code has no such exception: with `showNonprinting` set,
the input `"\n\t"` (`[10, 9]`) is emitted as `"^J^I"` (`[94, 74, 94, 73]`)
by the non-printing branch — the newline is rewritten to `^J` and the tab to
`^I` by that same branch. -/
theorem c5_lfd_tab_rendered :
    exec argsShowNonprinting [[[10, 9]]] = (none, some [94, 74, 94, 73]) := rfl

/-- C6: with `squeezeBlank` set, a byte is dropped with no output and no
state change exactly when it and the two tracked previous bytes are all
newlines; consequently `"a\n\n\n\n\nb\n"` is transformed to `"a\n\nb\n"`
(runs of two or more blank lines collapse to one; a single blank line is
never squeezed). -/
theorem c6_squeeze_exact :
    (∀ (args : RatArgs) (s : St) (b : Nat), args.squeeze_blank = true →
        (step args s b = ([], s) ↔
          b = 10 ∧ s.prev_byte = 10 ∧ s.prev_prev_byte = 10)) ∧
    exec argsSqueeze [[[97, 10, 10, 10, 10, 10, 98, 10]]] =
      (none, some [97, 10, 10, 98, 10]) := by
  constructor
  · intro args s b hsq
    by_cases hc : squeezeCond args s b = true
    · have hc2 := hc
      simp only [squeezeCond, hsq, Bool.true_and, Bool.and_eq_true, beq_iff_eq] at hc2
      constructor
      · intro _
        exact ⟨hc2.1.1, hc2.1.2, hc2.2⟩
      · intro _
        simp [step, hc]
    · have hc2 : ¬ (b = 10 ∧ s.prev_byte = 10 ∧ s.prev_prev_byte = 10) := by
        rintro ⟨h1, h2, h3⟩
        exact hc (by simp [squeezeCond, hsq, h1, h2, h3])
      constructor
      · intro hstep
        exfalso
        have h1 := congrArg Prod.fst hstep
        simp only [step, if_neg hc] at h1
        split at h1
        · simp at h1
        · split at h1 <;> simp at h1
      · intro hcon
        exact absurd hcon hc2
  · rfl

/-- C6 witness: the squeeze equivalence instantiated at the all-newline
state and a newline byte. -/
theorem c6_squeeze_exact_witness :
    argsSqueeze.squeeze_blank = true ∧
      (step argsSqueeze ⟨10, 10, 1⟩ 10 = ([], ⟨10, 10, 1⟩) ↔
        (10 = 10 ∧ (⟨10, 10, 1⟩ : St).prev_byte = 10 ∧
          (⟨10, 10, 1⟩ : St).prev_prev_byte = 10)) :=
  ⟨rfl, c6_squeeze_exact.1 argsSqueeze ⟨10, 10, 1⟩ 10 rfl⟩

/-- C7: with `numberNonblank` set, the line counter does not advance on a
blank line (the current byte is a newline) nor in mid-line (previous byte not
a newline), and on `"a\n\nb\n"` the output is exactly
`"     1 a\n\n     2 b\n"` — each number field right-justified in 6
characters, space padded, followed by one space, emitted only at the first
byte of a non-blank line. -/
theorem c7_number_nonblank_format :
    (∀ (s : St) (b : Nat), b = 10 ∨ ¬ s.prev_byte = 10 →
        (step argsNumberNonblank s b).2.index = s.index) ∧
    exec argsNumberNonblank [[[97, 10, 10, 98, 10]]] =
      (none, some [32, 32, 32, 32, 32, 49, 32, 97, 10, 10,
        32, 32, 32, 32, 32, 50, 32, 98, 10]) := by
  constructor
  · intro s b h
    have hnc : numCond argsNumberNonblank s b = false := by
      rcases h with h | h
      · simp [numCond, argsNumberNonblank, h]
      · simp [numCond, argsNumberNonblank, h]
    have hsp : argsNumberNonblank.show_nonprinting = false := rfl
    have hst : argsNumberNonblank.show_tabs = false := rfl
    have hsb : argsNumberNonblank.squeeze_blank = false := rfl
    simp [step, squeezeCond, numOut, mNotation, reduceHi, nextIndex,
      hsp, hst, hsb, hnc]
  · rfl

/-- C7 witness: the no-advance property discharged at the initial state and
a newline byte. -/
theorem c7_number_nonblank_format_witness :
    (10 = 10 ∨ ¬ initSt.prev_byte = 10) ∧
      (step argsNumberNonblank initSt 10).2.index = initSt.index :=
  ⟨Or.inl rfl, c7_number_nonblank_format.1 initSt 10 (Or.inl rfl)⟩

/-- C8: transform state is not reset between sources — processing a source
list is the same as processing the concatenation of all their chunks as one
stream — and concatenating the sources `"a\n"` and `"b\n"` with
`numberLines` set yields `"     1 a\n     2 b\n"`: numbering continues
across sources instead of restarting at 1. -/
theorem c8_cross_source_state :
    (∀ (args : RatArgs) (s : St) (srcs : List (List (List Nat))),
        procSources args s srcs = procChunks args s srcs.flatten) ∧
    exec argsNumberLines [[[97, 10]], [[98, 10]]] =
      (none, some [32, 32, 32, 32, 32, 49, 32, 97, 10,
        32, 32, 32, 32, 32, 50, 32, 98, 10]) :=
  ⟨fun args s srcs => procSources_join args srcs s, rfl⟩

/-- C9: whenever a run over any chunking of the input succeeds, its output
bytes are those of the pure per-byte transform of the concatenated input (a
function of the concatenated input only); chunkings into sizes 1
(`chunksOf 0`) and 4096 (`chunksOf 4095`) both succeed and give identical
results for every configuration; and with every option false the output
equals the input exactly, under any chunking. -/
theorem c9_chunk_invariance (args : RatArgs) (input : List Nat)
    (chunks : List (List Nat)) (hjoin : chunks.flatten = input) :
    (∀ (cs : List (List Nat)) (p : St × List Nat), cs.flatten = input →
        procChunks args initSt cs = some p →
        p.2 = (pureRun args initSt input).2) ∧
    exec args [chunksOf 0 input] = exec args [chunksOf 4095 input] ∧
    (optionsOff args → (exec args [chunks]).2 = some input) := by
  have hN : IO_BUFSIZE = 524288 := rfl
  refine ⟨?_, ?_, ?_⟩
  · intro cs p hcs hp
    have := procChunks_sound args cs initSt p hp
    rw [this, hcs]
  · by_cases hh : args.help
    · simp [exec, hh]
    by_cases hv : args.version
    · simp [exec, hh, hv]
    have e1 : procChunks args initSt (chunksOf 0 input) =
        some (pureRun args initSt input) := by
      have := procChunks_ok args (chunksOf 0 input) initSt (by decide)
        (fun c hc => by
          have := chunksOf_mem_len 0 input c hc
          rw [hN]
          omega)
      rwa [chunksOf_flatten] at this
    have e2 : procChunks args initSt (chunksOf 4095 input) =
        some (pureRun args initSt input) := by
      have := procChunks_ok args (chunksOf 4095 input) initSt (by decide)
        (fun c hc => by
          have := chunksOf_mem_len 4095 input c hc
          rw [hN]
          omega)
      rwa [chunksOf_flatten] at this
    simp [exec, hh, hv, procSources_single, e1, e2]
  · intro hoff
    have hh : args.help = false := hoff.2.2.2.2.2.2.1
    have hv : args.version = false := hoff.2.2.2.2.2.2.2
    have e3 : procChunks args initSt chunks =
        some (pureRun args initSt chunks.flatten) :=
      procChunks_off args hoff chunks initSt
    simp [exec, hh, hv, procSources_single, e3, hjoin, pureRun_off args hoff]

/-- C9 witness: the chunking-invariance statement discharged at the default
(all options off) configuration, input `"a\n"` and the chunking
`[[97], [10]]`. -/
theorem c9_chunk_invariance_witness :
    (([[97], [10]] : List (List Nat)).flatten = [97, 10]) ∧
    ((∀ (cs : List (List Nat)) (p : St × List Nat), cs.flatten = [97, 10] →
        procChunks ratArgsDefault initSt cs = some p →
        p.2 = (pureRun ratArgsDefault initSt [97, 10]).2) ∧
      exec ratArgsDefault [chunksOf 0 [97, 10]] =
        exec ratArgsDefault [chunksOf 4095 [97, 10]] ∧
      (optionsOff ratArgsDefault →
        (exec ratArgsDefault [[[97], [10]]]).2 = some [97, 10])) :=
  ⟨rfl, c9_chunk_invariance ratArgsDefault [97, 10] [[97], [10]] rfl⟩

/-- C10: when `help` is set, or `version` is set and `help` is not, `exec`
short-circuits: the sink receives no bytes, the result does not depend on the
sources (none is read), and the message printed to standard output is the
usage text when `help` is set (so help wins when both are set), the version
line otherwise. -/
theorem c10_help_version_short_circuit (args : RatArgs)
    (srcs1 srcs2 : List (List (List Nat)))
    (h : args.help = true ∨ (args.version = true ∧ args.help = false)) :
    (exec args srcs1).2 = some [] ∧
    exec args srcs1 = exec args srcs2 ∧
    (exec args srcs1).1 =
      some (if args.help then TopMsg.usage else TopMsg.versionMsg) := by
  rcases h with h | ⟨hv, hh⟩
  · simp [exec, h]
  · simp [exec, hh, hv]

/-- C10 witness: the short-circuit discharged at the help-only configuration
with a nonempty source against the empty source list. -/
theorem c10_help_version_short_circuit_witness :
    (argsHelp.help = true ∨ (argsHelp.version = true ∧ argsHelp.help = false)) ∧
    ((exec argsHelp [[[97]]]).2 = some [] ∧
      exec argsHelp [[[97]]] = exec argsHelp [] ∧
      (exec argsHelp [[[97]]]).1 =
        some (if argsHelp.help then TopMsg.usage else TopMsg.versionMsg)) :=
  ⟨Or.inl rfl, c10_help_version_short_circuit argsHelp [[[97]]] [] (Or.inl rfl)⟩

end RatRs
